import Mathlib

/-!
Verification of the query-understanding and ranking engine of `src/app.py`
(`normS`, `conservative_brand_typo_fix`, `detect_intents`, `detect_colors`,
`detect_brand`, `product_haystack`, `search_products`).

Strings are modelled as `List Char`.  Python's `difflib.SequenceMatcher.ratio`
is modelled exactly (no junk heuristic applies: the vocabulary words are far
shorter than the autojunk threshold of 200); ratios are kept as exact
fractions `(2*M, len(a)+len(b))` and compared by cross-multiplication, which
agrees with Python's IEEE-double comparison for all string lengths that can
reach the 0.84 threshold boundary here.
-/

set_option maxRecDepth 10000

abbrev Str := List Char

/-- Shorthand turning a Lean string literal into the `List Char` model. -/
def S (s : String) : Str := s.data

/-- Python regex `\s` on the characters relevant here (ASCII whitespace). -/
def isSpace (c : Char) : Bool :=
  c = ' ' || c = '\t' || c = '\n' || c = '\r' || c = '\x0b' || c = '\x0c'

/-- Case table for `str.lower()` restricted to ASCII letters and the Turkish
letters appearing in the source's vocabulary.  (Python maps `'İ'` to a
two-character string `i` + combining dot; that expansion is simplified to
`'i'` here — no vocabulary word or filter in the source distinguishes it.) -/
def lowerTable : List (Char × Char) :=
  [('A','a'),('B','b'),('C','c'),('D','d'),('E','e'),('F','f'),('G','g'),
   ('H','h'),('I','i'),('J','j'),('K','k'),('L','l'),('M','m'),('N','n'),
   ('O','o'),('P','p'),('Q','q'),('R','r'),('S','s'),('T','t'),('U','u'),
   ('V','v'),('W','w'),('X','x'),('Y','y'),('Z','z'),
   ('Ç','ç'),('Ğ','ğ'),('İ','i'),('Ö','ö'),('Ş','ş'),('Ü','ü')]

/-- One character of `str.lower()`. -/
def pyLower (c : Char) : Char :=
  match lowerTable.find? (fun e => e.1 = c) with
  | some e => e.2
  | none => c

/-- `re.sub(r"\s+", " ", s)`: every maximal whitespace run becomes one `' '`. -/
def collapseWs : Str → Str
  | [] => []
  | c :: s =>
    let r := collapseWs s
    if isSpace c then (if r.headD 'x' = ' ' then r else ' ' :: r) else c :: r

/-- `str.strip()` (after collapsing, only `' '` can remain at the ends). -/
def stripSp (s : Str) : Str :=
  ((s.dropWhile isSpace).reverse.dropWhile isSpace).reverse

/-- `normS` from the source: lower-case, collapse whitespace runs, strip. -/
def normS (s : Str) : Str := stripSp (collapseWs (s.map pyLower))

/-- Split on every whitespace character (helper for `str.split()`):
`chunks` keeps the empty pieces produced by adjacent whitespace. -/
def chunks : Str → List Str
  | [] => [[]]
  | c :: s =>
    let r := chunks s
    if isSpace c then [] :: r else (c :: r.headD []) :: r.tail

/-- Python `s.split()`: maximal non-whitespace chunks, empties discarded. -/
def pyWords (s : Str) : List Str := (chunks s).filter (fun w => !w.isEmpty)

/-- `" ".join(ws)`. -/
def joinSp : List Str → Str
  | [] => []
  | [w] => w
  | w :: ws => w ++ ' ' :: joinSp ws

/-- `needle` is a prefix of `hay` (decidable, structural). -/
def isPre : Str → Str → Bool
  | [], _ => true
  | _ :: _, [] => false
  | a :: as, b :: bs => a = b && isPre as bs

/-- Python's substring test `needle in hay`. -/
def pyIn (needle : Str) : Str → Bool
  | [] => isPre needle []
  | c :: t => isPre needle (c :: t) || pyIn needle t

/-- Fuel-driven worker for `s.replace(pat, rep)` (leftmost, non-overlapping;
only ever called with the non-empty pattern `"popmart"`). -/
def pyReplaceF (pat rep : Str) : Nat → Str → Str
  | 0, s => s
  | _ + 1, [] => []
  | fuel + 1, c :: s =>
    if isPre pat (c :: s) && !pat.isEmpty then
      rep ++ pyReplaceF pat rep fuel ((c :: s).drop pat.length)
    else
      c :: pyReplaceF pat rep fuel s

/-- Python `s.replace(pat, rep)`. -/
def pyReplace (pat rep s : Str) : Str := pyReplaceF pat rep s.length s

/-! ### difflib.SequenceMatcher -/

/-- Length of the common prefix of two strings. -/
def cpl : Str → Str → Nat
  | a :: as, b :: bs => if a = b then cpl as bs + 1 else 0
  | _, _ => 0

/-- `find_longest_match` with no junk: the matching block `(i, j, k)` of
maximal size `k`, ties broken by least `i`, then least `j` — exactly the
result of difflib's row scan with strict improvement. -/
def flm (a b : Str) : Nat × Nat × Nat :=
  (List.range a.length).foldl
    (fun best i =>
      (List.range b.length).foldl
        (fun best j =>
          let k := cpl (a.drop i) (b.drop j)
          if best.2.2 < k then (i, j, k) else best)
        best)
    (0, 0, 0)

/-- Fuel-driven total sum of `get_matching_blocks` sizes (the `M` of
`ratio = 2*M/T`): recursively take the longest block and recurse left and
right of it. -/
def matchSumF : Nat → Str → Str → Nat
  | 0, _, _ => 0
  | fuel + 1, a, b =>
    match flm a b with
    | (i, j, k) =>
      if k = 0 then 0
      else matchSumF fuel (a.take i) (b.take j) + k +
           matchSumF fuel (a.drop (i + k)) (b.drop (j + k))

/-- Total size of all matching blocks of `SequenceMatcher(None, a, b)`. -/
def matchSum (a b : Str) : Nat := matchSumF (a.length + 1) a b

/-- `SequenceMatcher.ratio()` as the exact fraction `2*M / (len a + len b)`
(`1.0` for two empty strings, as in difflib). -/
def ratioFrac (a b : Str) : Nat × Nat :=
  if a.length + b.length = 0 then (1, 1)
  else (2 * matchSum a b, a.length + b.length)

/-- Exact comparison `x < y` of two ratio fractions (positive denominators). -/
def fracLt (x y : Nat × Nat) : Bool := x.1 * y.2 < y.1 * x.2

/-- Exact test `x ≥ 0.84` (`0.84 = 21/25`). -/
def fracGe84 (x : Nat × Nat) : Bool := 21 * x.2 ≤ 25 * x.1

/-! ### Lexicon (the literal dictionaries of the source) -/

/-- `CATEGORY_INTENTS`, in source (insertion) order. -/
def CATEGORY_INTENTS : List (Str × List Str) :=
  [(S "sirt_okul_cantasi",
      [S "sırt çantası", S "sirt cantasi", S "okul çantası", S "okul cantasi",
       S "backpack", S "school bag"]),
   (S "cekcekli",
      [S "çekçekli", S "cekcekli", S "çekçek", S "cekcek", S "trolley",
       S "valizli", S "kabin boy"]),
   (S "beslenme",
      [S "beslenme çantası", S "beslenme cantasi", S "lunch", S "lunchbag"]),
   (S "kalem_kutusu",
      [S "kalem kutusu", S "kalemkutusu", S "pencil case", S "kalemlik"]),
   (S "kalem", [S "kalem", S "pencil", S "pen"]),
   (S "silgi", [S "silgi", S "eraser"]),
   (S "defter", [S "defter", S "günlük", S "gunluk", S "notebook", S "diary"]),
   (S "kirtasiye_set",
      [S "kırtasiye set", S "kirtasiye set", S "setleri", S "gift pack"]),
   (S "suluk_termos", [S "suluk", S "termos", S "matara", S "bottle", S "thermos"]),
   (S "blind_box", [S "blind box", S "sürpriz kutu", S "surpriz kutu"]),
   (S "oyuncak_figur",
      [S "oyuncak", S "figür", S "figur", S "koleksiyon", S "collectible"]),
   (S "labubu", [S "labubu"]),
   (S "crybaby", [S "crybaby", S "cry baby"]),
   (S "skullpanda", [S "skullpanda", S "skull panda"]),
   (S "hacipupu", [S "hacipupu"]),
   (S "twinkle", [S "twinkle"]),
   (S "dimoo", [S "dimoo"]),
   (S "kozmetik",
      [S "kozmetik", S "dudak", S "parlatıcı", S "parlatici", S "lip", S "gloss"]),
   (S "anahtarlik",
      [S "anahtarlık", S "anahtarlik", S "boyun askısı", S "boyun askisi",
       S "lanyard"]),
   (S "cuzdan", [S "cüzdan", S "cuzdan", S "wallet"]),
   (S "pasaportluk", [S "pasaportluk", S "passport"]),
   (S "taki",
      [S "takı", S "taki", S "küpe", S "kupe", S "bileklik", S "kolye",
       S "jewelry", S "bracelet", S "earring"])]

/-- `INTENT_TO_CATEGORY_PATH_HINTS`. -/
def INTENT_TO_CATEGORY_PATH_HINTS : List (Str × List Str) :=
  [(S "sirt_okul_cantasi",
      [S "sırt & okul çantası", S "okul-sirt-cantasi", S "okul çantası",
       S "sırt çantası", S "canta"]),
   (S "cekcekli",
      [S "çekçekli çanta", S "cekcekli", S "trolley", S "çocuk-çekçekli-valiz",
       S "valiz"]),
   (S "beslenme", [S "beslenme çantası", S "beslenme-cantasi"]),
   (S "kalem_kutusu", [S "kalem kutusu", S "kalem-kutusu"]),
   (S "kalem", [S "kalem;", S " kalem ", S "kalem-"]),
   (S "silgi", [S "silgi"]),
   (S "defter", [S "defter", S "günlük"]),
   (S "kirtasiye_set", [S "kırtasiye setleri", S "kirtasiye-setleri"]),
   (S "suluk_termos", [S "suluk & termos", S "suluk-termos", S "termos", S "suluk"]),
   (S "blind_box", [S "blind box", S "sürpriz", S "surpriz"]),
   (S "oyuncak_figur",
      [S "oyuncak figürler", S "oyuncak ve figürler", S "koleksiyonluk"]),
   (S "labubu", [S "labubu"]),
   (S "crybaby", [S "crybaby"]),
   (S "skullpanda", [S "skullpanda"]),
   (S "hacipupu", [S "hacipupu"]),
   (S "twinkle", [S "twinkle"]),
   (S "dimoo", [S "dimoo"]),
   (S "kozmetik", [S "kozmetik"]),
   (S "anahtarlik",
      [S "anahtarlık", S "anahtarlik", S "boyun askısı", S "boyun askisi"]),
   (S "cuzdan", [S "cüzdan", S "cuzdan"]),
   (S "pasaportluk", [S "pasaportluk"]),
   (S "taki", [S "takı", S "taki", S "küpe", S "kupe", S "bileklik"])]

/-- `COLOR_TERMS`. -/
def COLOR_TERMS : List (Str × List Str) :=
  [(S "pembe", [S "pembe", S "pink"]),
   (S "siyah", [S "siyah", S "black"]),
   (S "mavi", [S "mavi", S "blue"]),
   (S "mor", [S "mor", S "purple"]),
   (S "kırmızı", [S "kırmızı", S "kirmizi", S "red"]),
   (S "yeşil", [S "yeşil", S "yesil", S "green"]),
   (S "turuncu", [S "turuncu", S "orange"]),
   (S "sarı", [S "sarı", S "sari", S "yellow"]),
   (S "beyaz", [S "beyaz", S "white"]),
   (S "gri", [S "gri", S "gray", S "grey"]),
   (S "çok renkli", [S "çok renkli", S "cok renkli", S "multicolor"])]

/-! ### Intent / brand detection and typo correction -/

/-- `detect_intents(nq)`: every intent one of whose terms occurs,
normalized, as a substring of the normalized query. -/
def detect_intents (nq : Str) : List Str :=
  (CATEGORY_INTENTS.filter (fun e => e.2.any (fun t => pyIn (normS t) nq))).map
    (fun e => e.1)

/-- `detect_colors(nq)`. -/
def detect_colors (nq : Str) : List Str :=
  (COLOR_TERMS.filter (fun e => e.2.any (fun t => pyIn (normS t) nq))).map
    (fun e => e.1)

/-- `detect_brand(nq)`. -/
def detect_brand (nq : Str) : Option Str :=
  if pyIn (S "smiggle") nq then some (S "smiggle")
  else if pyIn (S "pop mart") nq || pyIn (S "popmart") nq then some (S "pop mart")
  else none

/-- The `known` vocabulary of `conservative_brand_typo_fix`. -/
def known : List Str :=
  [S "smiggle", S "crybaby", S "labubu", S "skullpanda", S "hacipupu",
   S "twinkle", S "dimoo", S "popmart", S "pop", S "mart"]

/-- The per-token best-match scan: start from `(None, 0.0)` and keep the
first vocabulary word strictly improving the ratio. -/
def bestFor (t : Str) : Option Str × (Nat × Nat) :=
  known.foldl
    (fun best k =>
      let r := ratioFrac t k
      if fracLt best.2 r then (some k, r) else best)
    (none, (0, 1))

/-- One token of the typo fix: replace `t` by its best vocabulary match when
the best ratio reaches `0.84` and the match differs from `t`; the `Bool`
records whether a replacement happened. -/
def fixToken (t : Str) : Str × Bool :=
  match bestFor t with
  | (some k, r) => if fracGe84 r && !(t == k) then (k, true) else (t, false)
  | (none, _) => (t, false)

/-- Body of `conservative_brand_typo_fix` on the normalized query: `none`
models the source's early `return q` paths (empty query, more than 4 tokens,
or no token changed); `some fixed` is the corrected string after the final
`"popmart" -> "pop mart"` post-processing replace (the source's preceding
`replace("pop mart", "pop mart")` is the identity and is omitted). -/
def fixCore (nq : Str) : Option Str :=
  if nq = [] then none
  else if 4 < (pyWords nq).length then none
  else if ((pyWords nq).map fixToken).all (fun a => !a.2) then none
  else some (pyReplace (S "popmart") (S "pop mart")
      (joinSp (((pyWords nq).map fixToken).map (fun a => a.1))))

/-- `conservative_brand_typo_fix(q)`. -/
def conservative_brand_typo_fix (q : Str) : Str := (fixCore (normS q)).getD q

/-! ### Product records and the search pipeline -/

/-- A catalog record, restricted to the fields `search_products` reads.
`none` models a missing key (or a JSON `null`: every read in the source is
`p.get(f, d) or d`, which treats both alike). -/
structure Product where
  brand : Option Str
  name : Option Str
  title : Option Str
  category_path : Option Str
  product_type : Option Str
  colors : Option (List Str)
  product_link : Option Str
  link : Option Str
  code : Option Int
deriving DecidableEq

/-- `p.get(f, "") or ""` for a string field. -/
def getS (o : Option Str) : Str := o.getD []

/-- Python `a or b` on strings (empty string is falsy). -/
def orStr (a b : Str) : Str := if a = [] then b else a

/-- `p.get("name", "") or p.get("title", "") or ""`. -/
def nameOrTitle (p : Product) : Str := orStr (getS p.name) (getS p.title)

/-- `p.get("product_link", "") or p.get("link", "") or ""`. -/
def linkOf (p : Product) : Str := orStr (getS p.product_link) (getS p.link)

/-- `p.get("colors", []) or []` (also used for `p.get("colors") or []`). -/
def colorsOf (p : Product) : List Str := p.colors.getD []

/-- `safe_int(p.get("code", 0), 0)` (feed codes are integers). -/
def pCode (p : Product) : Int := p.code.getD 0

/-- `product_haystack(p)`. -/
def product_haystack (p : Product) : Str :=
  normS (joinSp
    [getS p.brand, nameOrTitle p, getS p.category_path, getS p.product_type,
     joinSp (colorsOf p), linkOf p])

/-- The brand hard filter of `search_products` (`continue` when false). -/
def brandPass (brand : Option Str) (p : Product) : Bool :=
  match brand with
  | none => true
  | some b =>
    (if b = S "smiggle" then pyIn (S "smiggle") (normS (getS p.brand)) else true) &&
    (if b = S "pop mart" then
       let pb := normS (getS p.brand)
       pyIn (S "pop") pb || pyIn (S "mart") pb || pyIn (S "pop mart") pb
     else true)

/-- One intent of the category hard filter: its hints occur in the
category path or the link, or one of the name-based strong matches holds. -/
def intentHintOk (p : Product) (ix : Str) : Bool :=
  let cat := normS (getS p.category_path)
  let link := normS (linkOf p)
  let name := normS (nameOrTitle p)
  let hints := ((INTENT_TO_CATEGORY_PATH_HINTS.find? (fun e => e.1 == ix)).map
      (fun e => e.2)).getD []
  (hints.any (fun h => pyIn (normS h) cat) || hints.any (fun h => pyIn (normS h) link)) ||
  (ix == S "suluk_termos" &&
    (pyIn (S "termos") name || pyIn (S "suluk") name || pyIn (S "matara") name)) ||
  (ix == S "kalem_kutusu" &&
    (pyIn (S "kalem kutusu") name || pyIn (S "kalemkutusu") name)) ||
  (ix == S "cekcekli" &&
    (pyIn (S "çekçek") name || pyIn (S "cekcek") name || pyIn (S "trolley") name)) ||
  (((ix == S "labubu" || ix == S "crybaby" || ix == S "skullpanda" ||
     ix == S "hacipupu" || ix == S "twinkle" || ix == S "dimoo")) &&
    (pyIn ix name || pyIn ix cat || pyIn ix link))

/-- The color hard filter: some detected color occurs in the normalized
joined colors or in the normalized name. -/
def colorOk (colors : List Str) (p : Product) : Bool :=
  let pcols := joinSp ((colorsOf p).map normS)
  let pname := normS (nameOrTitle p)
  colors.any (fun c => pyIn c pcols || pyIn c pname)

/-- The score of a surviving product: token matches in the haystack, +5 when
a category intent fired, +3 when a color fired, plus the capped recency
boost `min(3, code // 200)` (Python `//` is floor division). -/
def scoreOf (tokens intents colors : List Str) (p : Product) : Int :=
  (tokens.countP (fun t => pyIn t (product_haystack p)) : Int) +
  (if intents.isEmpty then 0 else 5) +
  (if colors.isEmpty then 0 else 3) +
  min 3 ((pCode p).fdiv 200)

/-- The per-product body of the scan loop of `search_products`: `none` for a
`continue` (a hard filter rejected `p`, or the final score is not positive),
otherwise the `(score, code, p)` triple appended to `scored`. -/
def scoreEntry (brand : Option Str) (intents colors tokens : List Str)
    (p : Product) : Option (Int × Int × Product) :=
  if brandPass brand p &&
     (intents.isEmpty || intents.any (intentHintOk p)) &&
     (colors.isEmpty || colorOk colors p) then
    if 0 < scoreOf tokens intents colors p then
      some (scoreOf tokens intents colors p, pCode p, p)
    else none
  else none

/-- Insert one scored triple into a list sorted descending by `(score, code)`;
an earlier triple goes before later triples with the same key.  Together with
`sortScored` this is Python's stable `scored.sort(key=..., reverse=True)`. -/
def insertScored (e : Int × Int × Product) :
    List (Int × Int × Product) → List (Int × Int × Product)
  | [] => [e]
  | x :: xs =>
    if x.1 < e.1 || (x.1 = e.1 && x.2.1 ≤ e.2.1) then e :: x :: xs
    else x :: insertScored e xs

/-- Stable descending sort by `(score, code)`. -/
def sortScored : List (Int × Int × Product) → List (Int × Int × Product)
  | [] => []
  | x :: xs => insertScored x (sortScored xs)

/-- Python slice `l[:k]` for an `int` bound `k` (negative `k` counts from
the end). -/
def pyTake (k : Int) (l : List α) : List α :=
  if 0 ≤ k then l.take k.toNat else l.take (l.length - (-k).toNat)

/-- The metadata dictionary returned by `search_products`. -/
structure Meta where
  query_original : Str
  query_fixed : Str
  intent : List Str
  colors : List Str
  brand : Option Str
deriving DecidableEq

/-- `search_products(products, q, k)`. -/
def search_products (products : List Product) (q : Str) (k : Int) :
    List Product × Meta :=
  let q2 := conservative_brand_typo_fix q
  let nq := normS q2
  if nq = [] then ([], ⟨q, q2, [], [], none⟩)
  else
    let intents := detect_intents nq
    let colors := detect_colors nq
    let brand := detect_brand nq
    let tokens := pyWords nq
    let scored := products.filterMap (scoreEntry brand intents colors tokens)
    ((pyTake k (sortScored scored)).map (fun e => e.2.2),
     ⟨q, q2, intents, colors, brand⟩)

/-! ### Properties of `normS` -/

/-- Lower-case characters are not keys of the case table. -/
theorem lowerTable_snd_not_key :
    ∀ e ∈ lowerTable, lowerTable.find? (fun x => x.1 = e.2) = none := by decide

/-- `pyLower` is idempotent. -/
theorem pyLower_idem (c : Char) : pyLower (pyLower c) = pyLower c := by
  cases h : lowerTable.find? (fun e => e.1 = c) with
  | none =>
    have hc : pyLower c = c := by simp [pyLower, h]
    rw [hc]; exact hc
  | some e =>
    have hc : pyLower c = e.2 := by simp [pyLower, h]
    rw [hc]
    simp [pyLower, lowerTable_snd_not_key e (List.mem_of_find?_eq_some h)]

/-- Every character of `collapseWs t` is a `' '` or a character of `t`. -/
theorem mem_collapseWs {c : Char} :
    ∀ {t : Str}, c ∈ collapseWs t → c = ' ' ∨ c ∈ t := by
  intro t
  induction t with
  | nil => intro h; simp [collapseWs] at h
  | cons d s ih =>
    intro h
    simp only [collapseWs] at h
    by_cases hd : isSpace d = true
    · rw [if_pos hd] at h
      by_cases hh : (collapseWs s).headD 'x' = ' '
      · rw [if_pos hh] at h
        rcases ih h with h' | h'
        · exact Or.inl h'
        · exact Or.inr (List.mem_cons_of_mem _ h')
      · rw [if_neg hh] at h
        rcases List.mem_cons.mp h with h' | h'
        · exact Or.inl h'
        · rcases ih h' with h'' | h''
          · exact Or.inl h''
          · exact Or.inr (List.mem_cons_of_mem _ h'')
    · rw [if_neg hd] at h
      rcases List.mem_cons.mp h with h' | h'
      · exact Or.inr (h' ▸ List.mem_cons_self _ _)
      · rcases ih h' with h'' | h''
        · exact Or.inl h''
        · exact Or.inr (List.mem_cons_of_mem _ h'')

/-- In `collapseWs t` every whitespace character is the plain `' '`. -/
theorem blank_collapseWs {c : Char} :
    ∀ {t : Str}, c ∈ collapseWs t → isSpace c = true → c = ' ' := by
  intro t
  induction t with
  | nil => intro h _; simp [collapseWs] at h
  | cons d s ih =>
    intro h hc
    simp only [collapseWs] at h
    by_cases hd : isSpace d = true
    · rw [if_pos hd] at h
      by_cases hh : (collapseWs s).headD 'x' = ' '
      · rw [if_pos hh] at h; exact ih h hc
      · rw [if_neg hh] at h
        rcases List.mem_cons.mp h with h' | h'
        · exact h'
        · exact ih h' hc
    · rw [if_neg hd] at h
      rcases List.mem_cons.mp h with h' | h'
      · exact absurd (h' ▸ hc) (by simpa using hd)
      · exact ih h' hc

/-- Adjacent characters of `collapseWs t` are never both whitespace. -/
theorem sep_collapseWs :
    ∀ t : Str,
      List.Chain' (fun c d => ¬(isSpace c = true ∧ isSpace d = true)) (collapseWs t) := by
  intro t
  induction t with
  | nil => simp [collapseWs]
  | cons d s ih =>
    simp only [collapseWs]
    by_cases hd : isSpace d = true
    · rw [if_pos hd]
      by_cases hh : (collapseWs s).headD 'x' = ' '
      · rw [if_pos hh]; exact ih
      · rw [if_neg hh]
        refine List.chain'_cons'.mpr ⟨?_, ih⟩
        intro y hy
        cases hr : collapseWs s with
        | nil => rw [hr] at hy; simp at hy
        | cons z zs =>
          rw [hr] at hy
          simp only [List.head?_cons, Option.mem_def, Option.some.injEq] at hy
          have hyr : y ∈ collapseWs s := by
            rw [hr, ← hy]; exact List.mem_cons_self _ _
          intro hcon
          apply hh
          have hy' : y = ' ' := blank_collapseWs hyr hcon.2
          rw [hr, List.headD_cons, hy]
          exact hy'
    · rw [if_neg hd]
      refine List.chain'_cons'.mpr ⟨?_, ih⟩
      intro y _ hcon
      exact hd hcon.1

/-- The head of a `dropWhile` never satisfies the dropped predicate. -/
theorem head?_dropWhile {p : α → Bool} :
    ∀ {l : List α} {c : α}, (l.dropWhile p).head? = some c → p c = false := by
  intro l
  induction l with
  | nil => intro c h; simp at h
  | cons a l ih =>
    intro c h
    rw [List.dropWhile_cons] at h
    by_cases ha : p a = true
    · rw [if_pos ha] at h; exact ih h
    · rw [if_neg ha] at h
      simp only [List.head?_cons, Option.some.injEq] at h
      rw [← h]
      simpa using ha

/-- `stripSp` in terms of Mathlib's `rdropWhile`. -/
theorem stripSp_eq (s : Str) :
    stripSp s = (s.dropWhile isSpace).rdropWhile isSpace := rfl

/-- If a function fixes every member of a list, mapping it is the identity. -/
theorem map_id_of_mem {f : α → α} :
    ∀ {l : List α}, (∀ c ∈ l, f c = c) → l.map f = l := by
  intro l
  induction l with
  | nil => intro _; rfl
  | cons a l ih =>
    intro h
    simp only [List.map_cons]
    rw [h a (List.mem_cons_self _ _), ih (fun c hc => h c (List.mem_cons_of_mem _ hc))]

/-- `collapseWs` fixes a string whose whitespace is isolated single blanks. -/
theorem collapseWs_of_sep :
    ∀ {x : Str}, (∀ c ∈ x, isSpace c = true → c = ' ') →
      List.Chain' (fun c d => ¬(isSpace c = true ∧ isSpace d = true)) x →
      collapseWs x = x := by
  intro x
  induction x with
  | nil => intro _ _; rfl
  | cons c s ih =>
    intro hb hc
    have hs : collapseWs s = s :=
      ih (fun d hd => hb d (List.mem_cons_of_mem _ hd)) (List.chain'_cons'.mp hc).2
    simp only [collapseWs, hs]
    by_cases hsp : isSpace c = true
    · rw [if_pos hsp]
      have hcb : c = ' ' := hb c (List.mem_cons_self _ _) hsp
      cases s with
      | nil => simp [hcb]
      | cons d s' =>
        have hd : ¬(isSpace c = true ∧ isSpace d = true) :=
          (List.chain'_cons.mp hc).1
        have hds : isSpace d = false := by
          cases hds : isSpace d with
          | false => rfl
          | true => exact absurd ⟨hsp, hds⟩ hd
        have : ¬((d :: s').headD 'x' = ' ') := by
          simp only [List.headD_cons]
          intro hdd
          rw [hdd] at hds
          simp [isSpace] at hds
        rw [if_neg this, hcb]
    · rw [if_neg hsp]

/-- `dropWhile` fixes a list whose head does not satisfy the predicate. -/
theorem dropWhile_of_head {p : α → Bool} :
    ∀ {l : List α}, (∀ c, l.head? = some c → p c = false) → l.dropWhile p = l := by
  intro l h
  cases l with
  | nil => rfl
  | cons a l =>
    rw [List.dropWhile_cons, if_neg]
    simp [h a rfl]

/-- The five invariants enjoyed by every output of `normS`. -/
theorem norm_invariants (s : Str) :
    (∀ c ∈ normS s, pyLower c = c) ∧
    (∀ c ∈ normS s, isSpace c = true → c = ' ') ∧
    List.Chain' (fun c d => ¬(isSpace c = true ∧ isSpace d = true)) (normS s) ∧
    (∀ c, (normS s).head? = some c → isSpace c = false) ∧
    (∀ c, (normS s).reverse.head? = some c → isSpace c = false) := by
  have hmem : ∀ c ∈ normS s, c ∈ collapseWs (s.map pyLower) := by
    intro c hc
    have h1 : c ∈ (collapseWs (s.map pyLower)).dropWhile isSpace := by
      have hrev : c ∈ ((collapseWs (s.map pyLower)).dropWhile isSpace).reverse := by
        have hc' : c ∈ (normS s).reverse := List.mem_reverse.mpr hc
        have : (normS s).reverse
            = (((collapseWs (s.map pyLower)).dropWhile isSpace).reverse).dropWhile isSpace := by
          simp [normS, stripSp]
        rw [this] at hc'
        exact (List.dropWhile_suffix isSpace).subset hc'
      exact List.mem_reverse.mp hrev
    exact (List.dropWhile_suffix isSpace).subset h1
  refine ⟨?_, ?_, ?_, ?_, ?_⟩
  · intro c hc
    rcases mem_collapseWs (hmem c hc) with h | h
    · rw [h]; rfl
    · rcases List.mem_map.mp h with ⟨d, _, hd⟩
      rw [← hd]; exact pyLower_idem d
  · intro c hc hsp
    exact blank_collapseWs (hmem c hc) hsp
  · have h1 := sep_collapseWs (s.map pyLower)
    have h2 := h1.suffix (List.dropWhile_suffix isSpace)
    have h3 : List.Chain' (fun c d => ¬(isSpace c = true ∧ isSpace d = true))
        (((collapseWs (s.map pyLower)).dropWhile isSpace).reverse) := by
      rw [List.chain'_reverse]
      exact h2.imp (fun {a b} h hab => h ⟨hab.2, hab.1⟩)
    have h4 := h3.suffix (List.dropWhile_suffix isSpace)
    have h5 : List.Chain' (fun c d => ¬(isSpace c = true ∧ isSpace d = true))
        ((((collapseWs (s.map pyLower)).dropWhile isSpace).reverse).dropWhile
          isSpace).reverse := by
      rw [List.chain'_reverse]
      exact h4.imp (fun {a b} h hab => h ⟨hab.2, hab.1⟩)
    simpa [normS, stripSp] using h5
  · intro c hc
    have hpre : normS s <+: (collapseWs (s.map pyLower)).dropWhile isSpace := by
      rw [normS, stripSp_eq]
      exact List.rdropWhile_prefix _ _
    rcases hpre with ⟨t, ht⟩
    cases hn : normS s with
    | nil => rw [hn] at hc; simp at hc
    | cons a l =>
      rw [hn] at hc
      simp only [List.head?_cons, Option.some.injEq] at hc
      rw [hn] at ht
      have : ((collapseWs (s.map pyLower)).dropWhile isSpace).head? = some a := by
        rw [← ht]; rfl
      rw [← hc]
      exact head?_dropWhile this
  · intro c hc
    have : (normS s).reverse
        = (((collapseWs (s.map pyLower)).dropWhile isSpace).reverse).dropWhile isSpace := by
      simp [normS, stripSp]
    rw [this] at hc
    exact head?_dropWhile hc

/-- `normS` fixes anything satisfying the invariants of `norm_invariants`. -/
theorem norm_of_invariants {x : Str}
    (h1 : ∀ c ∈ x, pyLower c = c)
    (h2 : ∀ c ∈ x, isSpace c = true → c = ' ')
    (h3 : List.Chain' (fun c d => ¬(isSpace c = true ∧ isSpace d = true)) x)
    (h4 : ∀ c, x.head? = some c → isSpace c = false)
    (h5 : ∀ c, x.reverse.head? = some c → isSpace c = false) :
    normS x = x := by
  rw [normS, map_id_of_mem h1, collapseWs_of_sep h2 h3, stripSp,
      dropWhile_of_head (fun c hc => h4 c hc),
      dropWhile_of_head (fun c hc => h5 c hc), List.reverse_reverse]

/-- Idempotence of the lower-case/collapse/strip step `normS`. -/
theorem norm_idem (s : Str) : normS (normS s) = normS s := by
  obtain ⟨h1, h2, h3, h4, h5⟩ := norm_invariants s
  exact norm_of_invariants h1 h2 h3 h4 h5

/-! ### Bounds on the similarity machinery -/

/-- A `foldl` preserves any invariant preserved by each step. -/
theorem foldl_preserve (P : β → Prop) {f : β → α → β} :
    ∀ {l : List α} {init : β}, P init → (∀ acc a, a ∈ l → P acc → P (f acc a)) →
      P (l.foldl f init) := by
  intro l
  induction l with
  | nil => intro init h _; exact h
  | cons a l ih =>
    intro init h hstep
    exact ih (hstep init a (List.mem_cons_self _ _) h)
      (fun acc b hb => hstep acc b (List.mem_cons_of_mem _ hb))

/-- The common prefix is no longer than the left string. -/
theorem cpl_le_left : ∀ a b : Str, cpl a b ≤ a.length := by
  intro a
  induction a with
  | nil => intro b; cases b <;> simp [cpl]
  | cons c as ih =>
    intro b
    cases b with
    | nil => simp [cpl]
    | cons d bs =>
      simp only [cpl, List.length_cons]
      by_cases h : c = d
      · rw [if_pos h]; exact Nat.succ_le_succ (ih bs)
      · rw [if_neg h]; exact Nat.zero_le _

/-- The common prefix is no longer than the right string. -/
theorem cpl_le_right : ∀ a b : Str, cpl a b ≤ b.length := by
  intro a
  induction a with
  | nil => intro b; cases b <;> simp [cpl]
  | cons c as ih =>
    intro b
    cases b with
    | nil => simp [cpl]
    | cons d bs =>
      simp only [cpl, List.length_cons]
      by_cases h : c = d
      · rw [if_pos h]; exact Nat.succ_le_succ (ih bs)
      · rw [if_neg h]; exact Nat.zero_le _

/-- The block reported by `flm` lies inside both strings. -/
theorem flm_bounds (a b : Str) :
    (flm a b).1 + (flm a b).2.2 ≤ a.length ∧
    (flm a b).2.1 + (flm a b).2.2 ≤ b.length := by
  unfold flm
  refine foldl_preserve
    (fun best : Nat × Nat × Nat =>
      best.1 + best.2.2 ≤ a.length ∧ best.2.1 + best.2.2 ≤ b.length)
    (by simp) ?_
  intro acc i hi hacc
  refine foldl_preserve
    (fun best : Nat × Nat × Nat =>
      best.1 + best.2.2 ≤ a.length ∧ best.2.1 + best.2.2 ≤ b.length)
    hacc ?_
  intro acc' j hj hacc'
  dsimp only
  split_ifs with hk
  · have h1 : cpl (a.drop i) (b.drop j) ≤ a.length - i := by
      have := cpl_le_left (a.drop i) (b.drop j)
      rwa [List.length_drop] at this
    have h2 : cpl (a.drop i) (b.drop j) ≤ b.length - j := by
      have := cpl_le_right (a.drop i) (b.drop j)
      rwa [List.length_drop] at this
    have h3 : i < a.length := List.mem_range.mp hi
    have h4 : j < b.length := List.mem_range.mp hj
    exact ⟨by simpa using by omega, by simpa using by omega⟩
  · exact hacc'

/-- The matching-block total is no larger than the left string's length. -/
theorem matchSumF_le : ∀ (fuel : Nat) (a b : Str), matchSumF fuel a b ≤ a.length := by
  intro fuel
  induction fuel with
  | zero => intro a b; simp [matchSumF]
  | succ n ih =>
    intro a b
    have hb := flm_bounds a b
    rcases hflm : flm a b with ⟨i, j, k⟩
    rw [hflm] at hb
    simp only at hb
    simp only [matchSumF, hflm]
    split_ifs with hk
    · exact Nat.zero_le _
    · have h1 := ih (a.take i) (b.take j)
      have h2 := ih (a.drop (i + k)) (b.drop (j + k))
      rw [List.length_take] at h1
      rw [List.length_drop] at h2
      omega

/-- `matchSum a b ≤ |a|`. -/
theorem matchSum_le (a b : Str) : matchSum a b ≤ a.length := matchSumF_le _ a b

/-- Every vocabulary word has at least three characters. -/
theorem known_len : ∀ k ∈ known, 3 ≤ k.length := by decide

/-- A token of at most two characters can never reach the 0.84 threshold
against any vocabulary word (the ratio is at most `2·2/(2+3) = 0.8`). -/
theorem short_not_ge84 {t : Str} (ht : t.length ≤ 2) :
    ∀ k ∈ known, fracGe84 (ratioFrac t k) = false := by
  intro k hk
  have h3 : 3 ≤ k.length := known_len k hk
  have hM : matchSum t k ≤ t.length := matchSum_le t k
  rw [ratioFrac, if_neg (by omega)]
  simp only [fracGe84, decide_eq_false_iff_not]
  omega

/-- The best-match scan on a token of at most two characters stays below the
threshold. -/
theorem bestFor_short {t : Str} (ht : t.length ≤ 2) :
    fracGe84 (bestFor t).2 = false := by
  unfold bestFor
  refine foldl_preserve
    (fun best : Option Str × (Nat × Nat) => fracGe84 best.2 = false)
    (by decide) ?_
  intro acc k hk hacc
  dsimp only
  split_ifs with h
  · exact short_not_ge84 ht k hk
  · exact hacc

/-- A token of at most two characters is never replaced by the typo fix. -/
theorem fixToken_short {t : Str} (ht : t.length ≤ 2) : fixToken t = (t, false) := by
  have h := bestFor_short ht
  unfold fixToken
  rcases hb : bestFor t with ⟨ok, r⟩
  rw [hb] at h
  simp only at h
  cases ok with
  | none => rfl
  | some k =>
    dsimp only
    rw [h]
    rfl

/-- If every token of the normalized query is at most two characters long,
`conservative_brand_typo_fix` returns the query unchanged. -/
theorem fix_of_short_tokens {q : Str}
    (h : ∀ t ∈ pyWords (normS q), t.length ≤ 2) :
    conservative_brand_typo_fix q = q := by
  unfold conservative_brand_typo_fix
  have hc : fixCore (normS q) = none := by
    unfold fixCore
    split_ifs with h1 h2 h3
    · rfl
    · rfl
    · rfl
    · exfalso
      apply h3
      rw [List.all_eq_true]
      intro pr hpr
      rcases List.mem_map.mp hpr with ⟨t, ht, hpt⟩
      rw [← hpt, fixToken_short (h t ht)]
      rfl
  rw [hc]
  rfl

/-- `normS ∘ conservative_brand_typo_fix` (the full normalization step) is
idempotent on any query the typo fix leaves unchanged. -/
theorem normalize_idem_of_fix_id {q : Str}
    (h : conservative_brand_typo_fix q = q) :
    normS (conservative_brand_typo_fix (normS (conservative_brand_typo_fix q)))
      = normS (conservative_brand_typo_fix q) := by
  rw [h]
  show normS ((fixCore (normS (normS q))).getD (normS q)) = normS q
  rw [norm_idem]
  cases hf : fixCore (normS q) with
  | none => rw [Option.getD_none]; exact norm_idem q
  | some f =>
    have hfq : f = q := by
      unfold conservative_brand_typo_fix at h
      rw [hf, Option.getD_some] at h
      exact h
    rw [Option.getD_some, hfq]

/-! ### Structure of `search_products` -/

/-- Inserting a triple keeps the multiset of scored triples. -/
theorem insertScored_perm (e : Int × Int × Product) :
    ∀ l, (insertScored e l).Perm (e :: l) := by
  intro l
  induction l with
  | nil => exact List.Perm.refl _
  | cons x xs ih =>
    rw [insertScored]
    split_ifs with h
    · exact List.Perm.refl _
    · exact (ih.cons x).trans (List.Perm.swap e x xs)

/-- The stable descending sort is a permutation of its input. -/
theorem sortScored_perm : ∀ l, (sortScored l).Perm l := by
  intro l
  induction l with
  | nil => exact List.Perm.refl _
  | cons x xs ih => exact (insertScored_perm x (sortScored xs)).trans (ih.cons x)

/-- A Python slice `l[:k]` is a sublist of `l`. -/
theorem pyTake_sublist (k : Int) (l : List α) : (pyTake k l).Sublist l := by
  unfold pyTake
  split_ifs <;> exact List.take_sublist _ _

/-- Unfolded form of `search_products`. -/
theorem search_products_eq (products : List Product) (q : Str) (k : Int) :
    search_products products q k =
      if normS (conservative_brand_typo_fix q) = [] then
        ([], ⟨q, conservative_brand_typo_fix q, [], [], none⟩)
      else
        ((pyTake k (sortScored (products.filterMap
            (scoreEntry (detect_brand (normS (conservative_brand_typo_fix q)))
              (detect_intents (normS (conservative_brand_typo_fix q)))
              (detect_colors (normS (conservative_brand_typo_fix q)))
              (pyWords (normS (conservative_brand_typo_fix q))))))).map (fun e => e.2.2),
         ⟨q, conservative_brand_typo_fix q,
          detect_intents (normS (conservative_brand_typo_fix q)),
          detect_colors (normS (conservative_brand_typo_fix q)),
          detect_brand (normS (conservative_brand_typo_fix q))⟩) := rfl

/-- Everything a `some` result of `scoreEntry` certifies about the product. -/
theorem scoreEntry_eq_some {brand : Option Str} {intents colors tokens : List Str}
    {p : Product} {e : Int × Int × Product}
    (h : scoreEntry brand intents colors tokens p = some e) :
    e = (scoreOf tokens intents colors p, pCode p, p) ∧
    brandPass brand p = true ∧
    (intents.isEmpty || intents.any (intentHintOk p)) = true ∧
    (colors.isEmpty || colorOk colors p) = true ∧
    0 < scoreOf tokens intents colors p := by
  unfold scoreEntry at h
  split_ifs at h with h1 h2
  · rcases Bool.and_eq_true_iff.mp h1 with ⟨h12, h3⟩
    rcases Bool.and_eq_true_iff.mp h12 with ⟨hb, hi⟩
    exact ⟨(Option.some_inj.mp h).symm, hb, hi, h3, h2⟩

/-- Every product in the ranked result entered through `scoreEntry`. -/
theorem mem_search_products {products : List Product} {q : Str} {k : Int} {p : Product}
    (h : p ∈ (search_products products q k).1) :
    p ∈ products ∧
    scoreEntry (detect_brand (normS (conservative_brand_typo_fix q)))
      (detect_intents (normS (conservative_brand_typo_fix q)))
      (detect_colors (normS (conservative_brand_typo_fix q)))
      (pyWords (normS (conservative_brand_typo_fix q))) p =
      some (scoreOf (pyWords (normS (conservative_brand_typo_fix q)))
              (detect_intents (normS (conservative_brand_typo_fix q)))
              (detect_colors (normS (conservative_brand_typo_fix q))) p,
            pCode p, p) := by
  rw [search_products_eq] at h
  split_ifs at h with hnq
  · simp at h
  · simp only at h
    rcases List.mem_map.mp h with ⟨e, he, hep⟩
    have he2 := (pyTake_sublist k _).subset he
    have he3 := ((sortScored_perm _).mem_iff).mp he2
    rcases List.mem_filterMap.mp he3 with ⟨p', hp', hsome⟩
    obtain ⟨heq, -, -, -, -⟩ := scoreEntry_eq_some hsome
    have hpp' : p' = p := by rw [heq] at hep; exact hep
    rw [hpp'] at hp' hsome
    obtain ⟨heq2, -, -, -, -⟩ := scoreEntry_eq_some hsome
    rw [heq2] at hsome
    exact ⟨hp', hsome⟩

/-- Multiplicity of a product among the scored triples is bounded by its
multiplicity in the catalog. -/
theorem countP_filterMap_le (pr : Product)
    (f : Product → Option (Int × Int × Product))
    (hf : ∀ p e, f p = some e → e.2.2 = p) :
    ∀ l : List Product,
      (l.filterMap f).countP (fun e => e.2.2 == pr) ≤
        l.countP (fun x => x == pr) := by
  intro l
  induction l with
  | nil => simp
  | cons p l ih =>
    rw [List.filterMap_cons]
    cases hfp : f p with
    | none =>
      dsimp only
      rw [List.countP_cons]
      omega
    | some e =>
      dsimp only
      rw [List.countP_cons, List.countP_cons, hf p e hfp]
      omega

/-- The minimum with 3 of a floor quotient by 200 is nonpositive whenever the
dividend is below 200. -/
theorem recency_boost_nonpos {a : Int} (h : a < 200) : min 3 (a.fdiv 200) ≤ 0 := by
  rw [Int.fdiv_eq_ediv _ (by norm_num)]
  have h2 : a / 200 ≤ 0 := by omega
  omega

/-- If no hard filter fires, no token matches, and the recency boost is
nonpositive, `scoreEntry` rejects the product. -/
theorem scoreEntry_none_of_no_signal {brand : Option Str}
    {intents colors tokens : List Str} {p : Product}
    (hi : intents = []) (hc : colors = [])
    (ht : tokens.countP (fun t => pyIn t (product_haystack p)) = 0)
    (hcode : pCode p < 200) :
    scoreEntry brand intents colors tokens p = none := by
  unfold scoreEntry
  split_ifs with h1 h2
  · exfalso
    have hsc : scoreOf tokens intents colors p ≤ 0 := by
      unfold scoreOf
      rw [hi, hc, ht]
      have := recency_boost_nonpos hcode
      simp only [List.isEmpty_nil, if_pos]
      omega
    omega
  · rfl
  · rfl

/-- Record with every absent field replaced by its explicit default. -/
def defaultP (p : Product) : Product :=
  ⟨some (getS p.brand), some (getS p.name), some (getS p.title),
   some (getS p.category_path), some (getS p.product_type), some (colorsOf p),
   some (getS p.product_link), some (getS p.link), some (pCode p)⟩

/-- Defaulting promoted to scored triples. -/
def defaultE (e : Int × Int × Product) : Int × Int × Product :=
  (e.1, e.2.1, defaultP e.2.2)

/-- `scoreEntry` cannot tell a record from its explicitly-defaulted copy. -/
theorem scoreEntry_defaultP (brand : Option Str) (intents colors tokens : List Str)
    (p : Product) :
    scoreEntry brand intents colors tokens (defaultP p) =
      (scoreEntry brand intents colors tokens p).map defaultE := by
  show (if brandPass brand p &&
     (intents.isEmpty || intents.any (intentHintOk p)) &&
     (colors.isEmpty || colorOk colors p) then
    if 0 < scoreOf tokens intents colors p then
      some (scoreOf tokens intents colors p, pCode p, defaultP p)
    else none
  else none) = (scoreEntry brand intents colors tokens p).map defaultE
  unfold scoreEntry
  split_ifs <;> rfl

/-- Insertion commutes with defaulting (keys are untouched). -/
theorem insertScored_defaultE (e : Int × Int × Product) :
    ∀ l, insertScored (defaultE e) (l.map defaultE) = (insertScored e l).map defaultE := by
  intro l
  induction l with
  | nil => rfl
  | cons x xs ih =>
    rw [List.map_cons, insertScored, insertScored]
    unfold defaultE
    dsimp only
    split_ifs with h
    · rfl
    · rw [List.map_cons]
      exact congrArg _ ih

/-- Sorting commutes with defaulting. -/
theorem sortScored_defaultE :
    ∀ l, sortScored (l.map defaultE) = (sortScored l).map defaultE := by
  intro l
  induction l with
  | nil => rfl
  | cons x xs ih =>
    rw [List.map_cons, sortScored, sortScored, ih]
    exact insertScored_defaultE x (sortScored xs)

/-- Slicing commutes with any map. -/
theorem pyTake_map (k : Int) (f : α → β) (l : List α) :
    pyTake k (l.map f) = (pyTake k l).map f := by
  unfold pyTake
  rw [List.length_map]
  split_ifs <;> rw [List.map_take]

/-- The slice `l[:0]` is empty. -/
theorem pyTake_zero (l : List α) : pyTake 0 l = [] := by
  unfold pyTake
  rw [if_pos (le_refl 0)]
  rfl

/-! ### Concrete catalog fixtures -/

/-- Fixture: a product of the unrelated brand "Smart". -/
def pSmart : Product :=
  ⟨some (S "Smart"), some (S "Smart Bag"), none, none, none, none, none, none,
   some 0⟩

/-- Fixture: a product with no searchable signal but a recency code of 200. -/
def pFoo : Product :=
  ⟨none, some (S "foo"), none, none, none, none, none, none, some 200⟩

/-- Fixture: a product with no searchable signal and no recency code. -/
def pFoo0 : Product :=
  ⟨none, some (S "foo"), none, none, none, none, none, none, none⟩

/-- Fixture: a Smiggle pencil case. -/
def pSm : Product :=
  ⟨some (S "Smiggle"), some (S "Kalem Kutusu"), none, some (S "Kalem Kutusu"),
   none, none, none, none, some 1⟩

/-- Fixture: an other-brand pencil case. -/
def pOc : Product :=
  ⟨some (S "OtherCo"), some (S "Kalem Kutusu"), none, some (S "Kalem Kutusu"),
   none, none, none, none, some 0⟩

/-- Fixture: a pink product. -/
def pPink : Product :=
  ⟨none, some (S "Canta"), none, none, none, some [S "pembe"], none, none, none⟩

/-! ### Claims -/

/-- Claim C1, counterexample: for the detected brand "pop mart" the hard
filter only demands that the product's normalized brand contain `"pop"` or
`"mart"`; the catalog `[pSmart]` (brand "Smart") survives the query
`"pop mart"` and is ranked, although `"pop mart"` is not a substring of its
normalized brand — so the claimed invariant (every ranked product's brand
contains the detected brand's surface form) is false. -/
theorem C1_brand_exclusivity_cx :
    (search_products [pSmart] (S "pop mart") 6).1 = [pSmart] ∧
    (search_products [pSmart] (S "pop mart") 6).2.brand = some (S "pop mart") ∧
    pyIn (S "pop mart") (normS (getS pSmart.brand)) = false := by
  exact ⟨by decide, by decide, by decide⟩

/-- Claim C1, amended: the brand hard filter is absolute (a product that
fails it is skipped regardless of score), and every ranked product's
normalized brand contains `"smiggle"` when the detected brand is smiggle,
and contains `"pop"`, `"mart"`, or `"pop mart"` when the detected brand is
pop mart. -/
theorem C1_brand_filter_amended :
    ∀ (products : List Product) (q : Str) (k : Int) (p : Product) (b : Str),
      detect_brand (normS (conservative_brand_typo_fix q)) = some b →
      p ∈ (search_products products q k).1 →
      (b = S "smiggle" → pyIn (S "smiggle") (normS (getS p.brand)) = true) ∧
      (b = S "pop mart" →
        (pyIn (S "pop") (normS (getS p.brand)) ||
         pyIn (S "mart") (normS (getS p.brand)) ||
         pyIn (S "pop mart") (normS (getS p.brand))) = true) := by
  intro products q k p b hb hp
  obtain ⟨-, hsome⟩ := mem_search_products hp
  obtain ⟨-, hbp, -, -, -⟩ := scoreEntry_eq_some hsome
  rw [hb] at hbp
  constructor
  · intro hbs
    subst hbs
    unfold brandPass at hbp
    dsimp only at hbp
    rw [if_pos rfl, if_neg (by decide)] at hbp
    simpa using hbp
  · intro hbs
    subst hbs
    unfold brandPass at hbp
    dsimp only at hbp
    rw [if_neg (by decide), if_pos rfl] at hbp
    simpa using hbp

/-- Claim C1, witness: the amended theorem applied to the smiggle query
`"smiggle"` over the catalog `[pSm]`. -/
theorem C1_brand_filter_amended_witness :
    detect_brand (normS (conservative_brand_typo_fix (S "smiggle")))
      = some (S "smiggle") ∧
    pSm ∈ (search_products [pSm] (S "smiggle") 6).1 ∧
    pyIn (S "smiggle") (normS (getS pSm.brand)) = true := by
  have hb : detect_brand (normS (conservative_brand_typo_fix (S "smiggle")))
      = some (S "smiggle") := by decide
  have hp : pSm ∈ (search_products [pSm] (S "smiggle") 6).1 := by decide
  exact ⟨hb, hp,
    (C1_brand_filter_amended [pSm] (S "smiggle") 6 pSm (S "smiggle") hb hp).1 rfl⟩

/-- Claim C2, counterexample: the recency boost `min(3, code // 200)` is
added unconditionally, so the query `"xyzzy"` — which fires no intent, no
color, no brand, and matches no token of the only product's haystack —
still returns that product (its code 200 yields score 1), not the claimed
empty list. -/
theorem C2_no_signal_cx :
    (search_products [pFoo] (S "xyzzy") 6).1 = [pFoo] ∧
    detect_intents (S "xyzzy") = [] ∧
    detect_colors (S "xyzzy") = [] ∧
    detect_brand (S "xyzzy") = none ∧
    conservative_brand_typo_fix (S "xyzzy") = S "xyzzy" ∧
    (∀ t ∈ pyWords (S "xyzzy"), pyIn t (product_haystack pFoo) = false) := by
  exact ⟨by decide, by decide, by decide, by decide, by decide, by decide⟩

/-- Claim C2, amended: with no detected intent, color or brand, a product
with no token match can still appear through the recency boost; the result
is guaranteed empty only when additionally every product's code is below
200 (so the boost `min(3, code // 200)` is not positive). -/
theorem C2_no_signal_amended :
    ∀ (products : List Product) (q : Str) (k : Int),
      detect_intents (normS (conservative_brand_typo_fix q)) = [] →
      detect_colors (normS (conservative_brand_typo_fix q)) = [] →
      detect_brand (normS (conservative_brand_typo_fix q)) = none →
      (∀ p ∈ products,
        (∀ t ∈ pyWords (normS (conservative_brand_typo_fix q)),
          pyIn t (product_haystack p) = false) ∧ pCode p < 200) →
      (search_products products q k).1 = [] := by
  intro products q k hi hc hb hp
  rw [search_products_eq]
  split_ifs with hnq
  · rfl
  · dsimp only
    have hnil : products.filterMap
        (scoreEntry (detect_brand (normS (conservative_brand_typo_fix q)))
          (detect_intents (normS (conservative_brand_typo_fix q)))
          (detect_colors (normS (conservative_brand_typo_fix q)))
          (pyWords (normS (conservative_brand_typo_fix q)))) = [] := by
      rw [List.filterMap_eq_nil_iff]
      intro p hpm
      refine scoreEntry_none_of_no_signal hi hc ?_ (hp p hpm).2
      rw [List.countP_eq_zero]
      intro t htm
      simp [(hp p hpm).1 t htm]
    rw [hnil]
    show (pyTake k [] : List (Int × Int × Product)).map (fun e => e.2.2) = []
    unfold pyTake
    split_ifs <;> simp

/-- Claim C2, witness: the amended theorem applied to `"xyzzy"` over a
catalog holding only `pFoo0` (no code, no token match). -/
theorem C2_no_signal_amended_witness :
    detect_intents (normS (conservative_brand_typo_fix (S "xyzzy"))) = [] ∧
    (search_products [pFoo0] (S "xyzzy") 6).1 = [] := by
  refine ⟨by decide, ?_⟩
  exact C2_no_signal_amended [pFoo0] (S "xyzzy") 6 (by decide) (by decide)
    (by decide) (by decide)

/-- Claim C3 (code bug): the docstring of `conservative_brand_typo_fix`
promises the correction `smgle -> smiggle`, and the spec scenario demands
`corrections = [("smgle", "smiggle")]` with behaviour identical to the
correct spelling; but `ratio("smgle", "smiggle") = 10/12 < 0.84`, so the
code corrects nothing: `query_fixed` stays `"smgle kalem kutusu"`, no brand
is detected, no corrections record exists in the metadata at all, and the
ranked list differs from the correctly spelled query (the brand hard filter
never fires, letting the other-brand pencil case through). -/
theorem C3_smgle_not_corrected :
    conservative_brand_typo_fix (S "smgle kalem kutusu") = S "smgle kalem kutusu" ∧
    fracGe84 (ratioFrac (S "smgle") (S "smiggle")) = false ∧
    (search_products [pSm, pOc] (S "smgle kalem kutusu") 6).2.query_fixed
      = S "smgle kalem kutusu" ∧
    (search_products [pSm, pOc] (S "smgle kalem kutusu") 6).2.brand = none ∧
    (search_products [pSm, pOc] (S "smgle kalem kutusu") 6).1 = [pSm, pOc] ∧
    (search_products [pSm, pOc] (S "smiggle kalem kutusu") 6).2.brand
      = some (S "smiggle") ∧
    (search_products [pSm, pOc] (S "smiggle kalem kutusu") 6).1 = [pSm] := by
  exact ⟨by decide, by decide, by decide, by decide, by decide, by decide,
    by decide⟩

/-- Claim C4, counterexample: there is no token-length floor in the code —
the 3-character token `"mar"` is replaced by the vocabulary word `"mart"`
(ratio `6/7 ≥ 0.84`), so "spelling correction is only ever attempted on
tokens of length at least 4" is false. -/
theorem C4_short_token_cx :
    conservative_brand_typo_fix (S "mar") = S "mart" ∧ (S "mar").length < 4 := by
  exact ⟨by decide, by decide⟩

/-- Claim C4, amended: the code has no explicit length floor (3-character
tokens can be corrected), but a token of at most 2 characters is never
replaced: against this vocabulary (shortest word 3 characters) its
similarity ratio is at most `4/5 < 0.84`.  In particular the scenario of a
single 2-character token one edit from a vocabulary entry holds. -/
theorem C4_two_char_floor :
    ∀ q : Str, (∀ t ∈ pyWords (normS q), t.length ≤ 2) →
      conservative_brand_typo_fix q = q :=
  fun _ h => fix_of_short_tokens h

/-- Claim C4, witness: the amended theorem applied to the two-token
2-character query `"ab cd"`. -/
theorem C4_two_char_floor_witness :
    (∀ t ∈ pyWords (normS (S "ab cd")), t.length ≤ 2) ∧
    conservative_brand_typo_fix (S "ab cd") = S "ab cd" := by
  refine ⟨by decide, ?_⟩
  exact C4_two_char_floor (S "ab cd") (by decide)

/-- Claim C5: an empty or whitespace-only query (normalized form empty)
returns the empty ranked list immediately, with empty intent and color
lists and no brand, for every catalog and limit. -/
theorem C5_empty_query :
    ∀ (products : List Product) (q : Str) (k : Int), normS q = [] →
      search_products products q k = ([], ⟨q, q, [], [], none⟩) := by
  intro products q k h
  have hfix : conservative_brand_typo_fix q = q := by
    unfold conservative_brand_typo_fix fixCore
    rw [h]
    rfl
  rw [search_products_eq, hfix, h]
  rfl

/-- Claim C5, witness: the theorem applied to the whitespace query `"  "`
over the catalog `[pSm]`. -/
theorem C5_empty_query_witness :
    normS (S "  ") = [] ∧
    search_products [pSm] (S "  ") 6 = ([], ⟨S "  ", S "  ", [], [], none⟩) := by
  refine ⟨by decide, ?_⟩
  exact C5_empty_query [pSm] (S "  ") 6 (by decide)

/-- Claim C6: whenever the detected color set is non-empty, every ranked
product has at least one detected color occurring as a substring of the
normalized join of its colors or of its normalized name — the color hard
filter admits no other product. -/
theorem C6_color_exclusivity :
    ∀ (products : List Product) (q : Str) (k : Int) (p : Product),
      detect_colors (normS (conservative_brand_typo_fix q)) ≠ [] →
      p ∈ (search_products products q k).1 →
      ∃ c ∈ detect_colors (normS (conservative_brand_typo_fix q)),
        (pyIn c (joinSp ((colorsOf p).map normS)) ||
         pyIn c (normS (nameOrTitle p))) = true := by
  intro products q k p hne hp
  obtain ⟨-, hsome⟩ := mem_search_products hp
  obtain ⟨-, -, -, hcol, -⟩ := scoreEntry_eq_some hsome
  rcases Bool.or_eq_true_iff.mp hcol with h | h
  · exact absurd (List.isEmpty_iff.mp h) hne
  · unfold colorOk at h
    rcases List.any_eq_true.mp h with ⟨c, hc, hcp⟩
    exact ⟨c, hc, hcp⟩

/-- Claim C6, witness: the theorem applied to the query `"pembe"` over the
catalog `[pPink]`. -/
theorem C6_color_exclusivity_witness :
    detect_colors (normS (conservative_brand_typo_fix (S "pembe"))) ≠ [] ∧
    pPink ∈ (search_products [pPink] (S "pembe") 6).1 ∧
    ∃ c ∈ detect_colors (normS (conservative_brand_typo_fix (S "pembe"))),
      (pyIn c (joinSp ((colorsOf pPink).map normS)) ||
       pyIn c (normS (nameOrTitle pPink))) = true := by
  have hne : detect_colors (normS (conservative_brand_typo_fix (S "pembe"))) ≠ [] := by
    decide
  have hp : pPink ∈ (search_products [pPink] (S "pembe") 6).1 := by decide
  exact ⟨hne, hp, C6_color_exclusivity [pPink] (S "pembe") 6 pPink hne hp⟩

/-- Claim C7, counterexample: `search_products` contains no validation of
the limit and no raise statement; with `k = 0` it returns normally through
the ordinary return path (the empty slice plus the fully computed
metadata), instead of raising an error as claimed — `k = 1` on the same
catalog shows the empty list is the slice's doing, not a failed search. -/
theorem C7_limit_zero_cx :
    search_products [pSm] (S "kalem") 0
      = ([], ⟨S "kalem", S "kalem", [S "kalem"], [], none⟩) ∧
    (search_products [pSm] (S "kalem") 1).1 = [pSm] := by
  exact ⟨by decide, by decide⟩

/-- Claim C7, amended: no limit validation exists; `k ≤ 0` is interpreted by
Python slice semantics — `k = 0` always yields an empty ranked list while
the metadata is still computed exactly as for any other limit. -/
theorem C7_limit_no_validation :
    ∀ (products : List Product) (q : Str),
      (search_products products q 0).1 = [] ∧
      ∀ k k' : Int,
        (search_products products q k).2 = (search_products products q k').2 := by
  intro products q
  constructor
  · rw [search_products_eq]
    split_ifs with h
    · rfl
    · dsimp only
      rw [pyTake_zero]
      rfl
  · intro k k'
    rw [search_products_eq, search_products_eq]
    split_ifs with h <;> rfl

/-- Claim C8: records with missing fields are read back as empty strings,
empty color sets and code 0 — replacing every missing field by that
explicit default changes nothing: the search returns the defaulted copies
of exactly the same ranked records with identical metadata, so a malformed
record can neither raise nor abort the scan of the rest of the catalog
(the model is total and per-product). -/
theorem C8_missing_fields :
    ∀ (products : List Product) (q : Str) (k : Int),
      search_products (products.map defaultP) q k =
        (((search_products products q k).1).map defaultP,
         (search_products products q k).2) := by
  intro products q k
  rw [search_products_eq, search_products_eq]
  split_ifs with h
  · rfl
  · dsimp only
    refine Prod.ext ?_ rfl
    rw [List.filterMap_map]
    have hfm :
        products.filterMap
          ((scoreEntry (detect_brand (normS (conservative_brand_typo_fix q)))
            (detect_intents (normS (conservative_brand_typo_fix q)))
            (detect_colors (normS (conservative_brand_typo_fix q)))
            (pyWords (normS (conservative_brand_typo_fix q)))) ∘ defaultP) =
        (products.filterMap
          (scoreEntry (detect_brand (normS (conservative_brand_typo_fix q)))
            (detect_intents (normS (conservative_brand_typo_fix q)))
            (detect_colors (normS (conservative_brand_typo_fix q)))
            (pyWords (normS (conservative_brand_typo_fix q))))).map defaultE := by
      rw [List.map_filterMap]
      exact List.filterMap_congr (fun p _ => scoreEntry_defaultP _ _ _ _ p)
    rw [hfm, sortScored_defaultE, pyTake_map, List.map_map, List.map_map]
    rfl

/-- Claim C9, counterexample: normalization (lower-case/collapse composed
with the conservative typo correction) is not a fixed point after one pass.
For `"zzpopmarta smigle"` the first pass corrects `smigle -> smiggle` and
the `"popmart" -> "pop mart"` post-replace splits the uncorrected token
`zzpopmarta` into `zzpop marta`; the second pass then corrects the freshly
created token `marta -> mart`, so `normalize(normalize(q)) ≠ normalize(q)`. -/
theorem C9_normalize_not_idem :
    normS (conservative_brand_typo_fix
        (normS (conservative_brand_typo_fix (S "zzpopmarta smigle"))))
      ≠ normS (conservative_brand_typo_fix (S "zzpopmarta smigle")) := by
  decide

/-- Claim C9, amended: normalization is a fixed point after one pass for
every query the typo-corrector leaves unchanged (and the plain
lower-case/collapse/strip step `normS` is idempotent on its own for all
strings); with a correction the post-replace can break idempotence. -/
theorem C9_normalize_idem_amended :
    ∀ q : Str, conservative_brand_typo_fix q = q →
      normS (conservative_brand_typo_fix (normS (conservative_brand_typo_fix q)))
        = normS (conservative_brand_typo_fix q) :=
  fun _ h => normalize_idem_of_fix_id h

/-- Claim C9, witness: the amended theorem applied to the uncorrected query
`"qqq"`. -/
theorem C9_normalize_idem_amended_witness :
    conservative_brand_typo_fix (S "qqq") = S "qqq" ∧
    normS (conservative_brand_typo_fix
        (normS (conservative_brand_typo_fix (S "qqq"))))
      = normS (conservative_brand_typo_fix (S "qqq")) := by
  refine ⟨by decide, ?_⟩
  exact C9_normalize_idem_amended (S "qqq") (by decide)

/-- Claim C10: for every catalog, query, and limit `k ≥ 0`, every ranked
product is an element of the input list and was assigned a strictly
positive score, and each input record contributes at most one result entry
(result multiplicity never exceeds catalog multiplicity). -/
theorem C10_result_soundness :
    ∀ (products : List Product) (q : Str) (k : Int), 0 ≤ k →
      (∀ p ∈ (search_products products q k).1,
        p ∈ products ∧
        0 < scoreOf (pyWords (normS (conservative_brand_typo_fix q)))
              (detect_intents (normS (conservative_brand_typo_fix q)))
              (detect_colors (normS (conservative_brand_typo_fix q))) p) ∧
      (∀ p : Product,
        ((search_products products q k).1).countP (fun x => x == p) ≤
          products.countP (fun x => x == p)) := by
  intro products q k _
  constructor
  · intro p hp
    obtain ⟨hmem, hsome⟩ := mem_search_products hp
    obtain ⟨-, -, -, -, hsc⟩ := scoreEntry_eq_some hsome
    exact ⟨hmem, hsc⟩
  · intro p
    rw [search_products_eq]
    split_ifs with h
    · simp
    · dsimp only
      rw [List.countP_map]
      have h1 :=
        (pyTake_sublist k (sortScored (products.filterMap
          (scoreEntry (detect_brand (normS (conservative_brand_typo_fix q)))
            (detect_intents (normS (conservative_brand_typo_fix q)))
            (detect_colors (normS (conservative_brand_typo_fix q)))
            (pyWords (normS (conservative_brand_typo_fix q))))))).countP_le
          ((fun x => x == p) ∘ (fun e : Int × Int × Product => e.2.2))
      have h2 := (sortScored_perm (products.filterMap
          (scoreEntry (detect_brand (normS (conservative_brand_typo_fix q)))
            (detect_intents (normS (conservative_brand_typo_fix q)))
            (detect_colors (normS (conservative_brand_typo_fix q)))
            (pyWords (normS (conservative_brand_typo_fix q)))))).countP_eq
          ((fun x => x == p) ∘ (fun e : Int × Int × Product => e.2.2))
      have h3 := countP_filterMap_le p
          (scoreEntry (detect_brand (normS (conservative_brand_typo_fix q)))
            (detect_intents (normS (conservative_brand_typo_fix q)))
            (detect_colors (normS (conservative_brand_typo_fix q)))
            (pyWords (normS (conservative_brand_typo_fix q))))
          (fun p' e he => by
            obtain ⟨heq, -, -, -, -⟩ := scoreEntry_eq_some he
            rw [heq])
          products
      calc ((pyTake k (sortScored (products.filterMap
              (scoreEntry (detect_brand (normS (conservative_brand_typo_fix q)))
                (detect_intents (normS (conservative_brand_typo_fix q)))
                (detect_colors (normS (conservative_brand_typo_fix q)))
                (pyWords (normS (conservative_brand_typo_fix q)))))))).countP
              ((fun x => x == p) ∘ (fun e : Int × Int × Product => e.2.2))
          ≤ _ := h1
        _ = _ := h2
        _ ≤ products.countP (fun x => x == p) := h3

/-- Claim C10, witness: the theorem applied to catalog `[pSm]`, query
`"kalem"`, limit 6, product `pSm`. -/
theorem C10_result_soundness_witness :
    pSm ∈ (search_products [pSm] (S "kalem") 6).1 ∧ pSm ∈ [pSm] ∧
    0 < scoreOf (pyWords (normS (conservative_brand_typo_fix (S "kalem"))))
          (detect_intents (normS (conservative_brand_typo_fix (S "kalem"))))
          (detect_colors (normS (conservative_brand_typo_fix (S "kalem")))) pSm := by
  have hmem : pSm ∈ (search_products [pSm] (S "kalem") 6).1 := by decide
  have h := (C10_result_soundness [pSm] (S "kalem") 6 (by norm_num)).1 pSm hmem
  exact ⟨hmem, h.1, h.2⟩
